import Mathlib

/-!
Verification of the linear-algebra layer and array-engine contracts of the
`rust-ndarray` repository.

The linear-algebra layer (`src/src/linalg.rs`) is embedded shallowly:
matrices become index functions `Nat → Nat → α` over a field `α`
(the Rust code is generic over `Float`; the square root is passed as an
explicit function parameter), mutable buffers become `Function.update`
chains or `List.set` chains, and `for` loops become structural folds that
apply the body at indices `0, 1, …, n-1` in order.  The array engine
itself (copy-on-write storage, slicing, iteration) is not part of the
sources, only its tests are; those parts are modelled from the spec,
each such definition carries a `Modelled from the spec:` doc comment.
-/

set_option linter.unusedSectionVars false
set_option linter.unusedVariables false

namespace Ndarray

/-- `forLoop f n s` runs the loop body `f` at indices `0, 1, …, n-1`, in
that order, threading the state `s`; it is the embedding of
`for i in range(0, n)` loops. -/
def forLoop {σ : Type} (f : Nat → σ → σ) : Nat → σ → σ
  | 0, s => s
  | n + 1, s => f n (forLoop f n s)

/-- Accumulating sum `0 + f 0 + f 1 + ⋯ + f (n-1)`, in loop order; the
embedding of `sum = sum + term` accumulation loops started at `zero()`. -/
def accSum {α : Type} [Field α] (f : Nat → α) : Nat → α
  | 0 => 0
  | n + 1 => accSum f n + f n

/-- Accumulating difference `start - f 0 - f 1 - ⋯ - f (n-1)`, in loop
order; the embedding of `acc = acc - term` loops. -/
def accSub {α : Type} [Field α] (start : α) (f : Nat → α) : Nat → α
  | 0 => start
  | n + 1 => accSub start f n - f n

variable {α : Type} [Field α]

theorem accSum_eq_sum (f : Nat → α) (n : Nat) :
    accSum f n = ∑ k in Finset.range n, f k := by
  induction n with
  | zero => simp [accSum]
  | succ n ih => rw [accSum, ih, Finset.sum_range_succ]

theorem accSub_eq_sub_sum (start : α) (f : Nat → α) (n : Nat) :
    accSub start f n = start - ∑ k in Finset.range n, f k := by
  induction n with
  | zero => simp [accSub]
  | succ n ih => rw [accSub, ih, Finset.sum_range_succ]; ring

theorem accSum_congr {f g : Nat → α} (n : Nat) (h : ∀ k, k < n → f k = g k) :
    accSum f n = accSum g n := by
  induction n with
  | zero => rfl
  | succ n ih =>
      rw [accSum, accSum, ih fun k hk => h k (Nat.lt_succ_of_lt hk),
        h n (Nat.lt_succ_self n)]

theorem forLoop_invar {σ : Type} (P : σ → Prop) (f : Nat → σ → σ)
    (h : ∀ j s, P s → P (f j s)) (n : Nat) (s : σ) (hs : P s) :
    P (forLoop f n s) := by
  induction n with
  | zero => exact hs
  | succ n ih => exact h n _ ih

/-- A two-dimensional array of elements, accessed by `(row, column)`. -/
abbrev Mat (α : Type) := Nat → Nat → α

/-- A single element write `L[(i, j)] = v` into a two-dimensional array. -/
def matUpd (L : Mat α) (i j : Nat) (v : α) : Mat α :=
  fun r c => if r = i ∧ c = j then v else L r c

theorem matUpd_self (L : Mat α) (i j : Nat) (v : α) :
    matUpd L i j v i j = v := by
  simp [matUpd]

theorem matUpd_ne (L : Mat α) (i j : Nat) (v : α) {r c : Nat}
    (h : r ≠ i ∨ c ≠ j) : matUpd L i j v r c = L r c := by
  rcases h with h | h <;> simp [matUpd, h]

/-- The inner column loop of `cholesky` for row `i`, run for `t` steps
(the source runs it with `t = i`): for each `j < t` it writes
`L[(i, j)] = (a[(i, j)] - Σ_{k<j} L[(i,k)]·L[(j,k)]) / L[(j, j)]`,
reading the current state of `L` exactly as the Rust `row_iter` zips do
(src/src/linalg.rs lines 99-115). -/
def cholRowIn (a : Mat α) (i t : Nat) (L : Mat α) : Mat α :=
  forLoop
    (fun j Lc =>
      matUpd Lc i j ((a i j - accSum (fun k => Lc i k * Lc j k) j) / Lc j j))
    t L

/-- One iteration of the outer row loop of `cholesky`
(src/src/linalg.rs lines 97-125): the column loop for `j < i` followed by
the diagonal write `L[(i, i)] = sqrt(a[(i, i)] - Σ_{k<i} L[(i,k)]²)`. -/
def cholRow (sqrt : α → α) (a : Mat α) (i : Nat) (L : Mat α) : Mat α :=
  let L1 := cholRowIn a i i L
  matUpd L1 i i (sqrt (a i i - accSum (fun k => L1 i k * L1 i k) i))

/-- The body of `cholesky` after its `assert!(m == n)`
(src/src/linalg.rs lines 91-127): start from `Array::zeros((n, n))` and
run the row loop for `i in range(0, n)`. -/
def cholesky (sqrt : α → α) (a : Mat α) (n : Nat) : Mat α :=
  forLoop (cholRow sqrt a) n (fun _ _ => 0)

/-- `cholesky` as called on an `m × n` input: the source first does
`assert!(m == n)` (a panic on non-square input, modelled as `none`) and
only then runs the factorization loop. -/
def cholesky_checked (sqrt : α → α) (a : Mat α) (m n : Nat) :
    Option (Mat α) :=
  if m = n then some (cholesky sqrt a n) else none

theorem cholRowIn_ne_row (a : Mat α) (i t : Nat) (L : Mat α) {r c : Nat}
    (h : r ≠ i) : cholRowIn a i t L r c = L r c := by
  refine forLoop_invar (fun Lc => Lc r c = L r c)
    (fun j Lc =>
      matUpd Lc i j ((a i j - accSum (fun k => Lc i k * Lc j k) j) / Lc j j))
    (fun j Lc hLc => ?_) t L rfl
  show matUpd Lc i j _ r c = L r c
  rw [matUpd_ne _ _ _ _ (Or.inl h)]
  exact hLc

theorem cholRowIn_col_ge (a : Mat α) (i t : Nat) (L : Mat α) {c : Nat}
    (h : t ≤ c) : cholRowIn a i t L i c = L i c := by
  induction t with
  | zero => rfl
  | succ t ih =>
      show matUpd _ i t _ i c = L i c
      rw [matUpd_ne _ _ _ _ (Or.inr (by omega))]
      exact ih (by omega)

theorem cholRowIn_col_stable (a : Mat α) (i : Nat) (L : Mat α) {k t : Nat}
    (h : k < t) : cholRowIn a i t L i k = cholRowIn a i (k + 1) L i k := by
  induction t with
  | zero => omega
  | succ t ih =>
      rcases Nat.lt_or_ge k t with hk | hk
      · show matUpd _ i t _ i k = _
        rw [matUpd_ne _ _ _ _ (Or.inr (by omega))]
        exact ih hk
      · have : k = t := by omega
        subst this
        rfl

theorem cholRow_ne_row (sqrt : α → α) (a : Mat α) (i : Nat) (L : Mat α)
    {r c : Nat} (h : r ≠ i) : cholRow sqrt a i L r c = L r c := by
  show matUpd _ i i _ r c = L r c
  rw [matUpd_ne _ _ _ _ (Or.inl h)]
  exact cholRowIn_ne_row a i i L h

theorem cholRow_col_gt (sqrt : α → α) (a : Mat α) (i : Nat) (L : Mat α)
    {c : Nat} (h : i < c) : cholRow sqrt a i L i c = L i c := by
  show matUpd _ i i _ i c = L i c
  rw [matUpd_ne _ _ _ _ (Or.inr (by omega))]
  exact cholRowIn_col_ge a i i L (by omega)

/-- Rows already produced are never rewritten by later outer iterations:
the factor's row `r` is final as soon as row `r` has been processed. -/
theorem cholesky_row_stable (sqrt : α → α) (a : Mat α) {r : Nat}
    {t t' : Nat} (hr : r < t) (h : t ≤ t') {c : Nat} :
    cholesky sqrt a t' r c = cholesky sqrt a t r c := by
  induction t' with
  | zero => omega
  | succ t' ih =>
      rcases Nat.lt_or_ge t' t with h' | h'
      · have : t = t' + 1 := by omega
        subst this; rfl
      · show cholRow sqrt a t' (cholesky sqrt a t') r c = _
        rw [cholRow_ne_row sqrt a t' _ (by omega)]
        exact ih (by omega)

theorem cholesky_row_ge (sqrt : α → α) (a : Mat α) {r t : Nat}
    (h : t ≤ r) {c : Nat} : cholesky sqrt a t r c = 0 := by
  induction t with
  | zero => rfl
  | succ t ih =>
      show cholRow sqrt a t (cholesky sqrt a t) r c = 0
      rw [cholRow_ne_row sqrt a t _ (by omega)]
      exact ih (by omega)

/-- The factor is zero strictly above the diagonal. -/
theorem cholesky_upper (sqrt : α → α) (a : Mat α) (n : Nat) {r c : Nat}
    (h : r < c) : cholesky sqrt a n r c = 0 := by
  induction n with
  | zero => rfl
  | succ n ih =>
      show cholRow sqrt a n (cholesky sqrt a n) r c = 0
      rcases Nat.decEq r n with hr | hr
      · rw [cholRow_ne_row sqrt a n _ hr]; exact ih
      · subst hr
        rw [cholRow_col_gt sqrt a r _ h]
        exact ih

theorem cholesky_succ (sqrt : α → α) (a : Mat α) (n : Nat) :
    cholesky sqrt a (n + 1) = cholRow sqrt a n (cholesky sqrt a n) := rfl

theorem cholRow_eq (sqrt : α → α) (a : Mat α) (i : Nat) (L : Mat α) :
    cholRow sqrt a i L =
      matUpd (cholRowIn a i i L) i i
        (sqrt (a i i -
          accSum (fun k => cholRowIn a i i L i k * cholRowIn a i i L i k)
            i)) := rfl

theorem cholRowIn_succ (a : Mat α) (i t : Nat) (L : Mat α) :
    cholRowIn a i (t + 1) L =
      matUpd (cholRowIn a i t L) i t
        ((a i t - accSum (fun k => cholRowIn a i t L i k * cholRowIn a i t L t k) t) /
          cholRowIn a i t L t t) := rfl

/-- While the column loop of row `i` is running, the entries it has
already written agree with the corresponding entries of the finished
factor. -/
theorem cholRowIn_entry_final (sqrt : α → α) (a : Mat α) {n i k t : Nat}
    (hi : i < n) (hk : k < i) (ht : k < t) :
    cholRowIn a i t (cholesky sqrt a i) i k = cholesky sqrt a n i k := by
  rw [cholRowIn_col_stable a i _ ht,
    cholesky_row_stable sqrt a (Nat.lt_succ_self i) hi,
    cholesky_succ, cholRow_eq, matUpd_ne _ _ _ _ (Or.inr (by omega)),
    cholRowIn_col_stable a i _ hk]

/-- Off-diagonal recurrence: for `j < i`, the factor satisfies
`L[i,j] = (a[i,j] - Σ_{k<j} L[i,k]·L[j,k]) / L[j,j]`. -/
theorem cholesky_offdiag (sqrt : α → α) (a : Mat α) {n i j : Nat}
    (hi : i < n) (hj : j < i) :
    cholesky sqrt a n i j =
      (a i j -
          accSum (fun k => cholesky sqrt a n i k * cholesky sqrt a n j k) j) /
        cholesky sqrt a n j j := by
  have hrowj : ∀ c, cholRowIn a i j (cholesky sqrt a i) j c =
      cholesky sqrt a n j c := by
    intro c
    rw [cholRowIn_ne_row a i j _ (by omega)]
    exact (cholesky_row_stable sqrt a hj (by omega)).symm
  have hsum : accSum
      (fun k => cholRowIn a i j (cholesky sqrt a i) i k *
        cholesky sqrt a n j k) j =
      accSum (fun k => cholesky sqrt a n i k * cholesky sqrt a n j k) j :=
    accSum_congr j fun k hk => by
      rw [cholRowIn_entry_final sqrt a hi (by omega) hk]
  rw [cholesky_row_stable sqrt a (Nat.lt_succ_self i) hi,
    cholesky_succ, cholRow_eq, matUpd_ne _ _ _ _ (Or.inr (by omega)),
    cholRowIn_col_stable a i _ hj, cholRowIn_succ, matUpd_self]
  simp only [hrowj]
  rw [hsum]

/-- Diagonal recurrence: `L[i,i] = sqrt(a[i,i] - Σ_{k<i} L[i,k]²)`. -/
theorem cholesky_diag (sqrt : α → α) (a : Mat α) {n i : Nat} (hi : i < n) :
    cholesky sqrt a n i i =
      sqrt (a i i -
        accSum (fun k => cholesky sqrt a n i k * cholesky sqrt a n i k) i) := by
  have hsum : accSum
      (fun k => cholRowIn a i i (cholesky sqrt a i) i k *
        cholRowIn a i i (cholesky sqrt a i) i k) i =
      accSum (fun k => cholesky sqrt a n i k * cholesky sqrt a n i k) i :=
    accSum_congr i fun k hk => by
      rw [cholRowIn_entry_final sqrt a hi hk hk]
  rw [cholesky_row_stable sqrt a (Nat.lt_succ_self i) hi,
    cholesky_succ, cholRow_eq, matUpd_self, hsum]

theorem cholRowIn_congr (a a' : Mat α) (i t : Nat) (L : Mat α)
    (h : ∀ j, j < t → a i j = a' i j) :
    cholRowIn a i t L = cholRowIn a' i t L := by
  induction t with
  | zero => rfl
  | succ t ih =>
      rw [cholRowIn_succ, cholRowIn_succ, ih fun j hj => h j (by omega),
        h t (by omega)]

theorem cholRow_congr (sqrt : α → α) (a a' : Mat α) (i : Nat) (L : Mat α)
    (h : ∀ j, j ≤ i → a i j = a' i j) :
    cholRow sqrt a i L = cholRow sqrt a' i L := by
  rw [cholRow_eq, cholRow_eq,
    cholRowIn_congr a a' i i L fun j hj => h j (by omega), h i (by omega)]

/-- C1: for every square `n×n` matrix `A`, `cholesky(A)` is zero strictly
above the diagonal, satisfies `L[i,j] = (A[i,j] − Σ_{k<j} L[i,k]·L[j,k]) /
L[j,j]` for `j < i`, and `L[i,i] = sqrt(A[i,i] − Σ_{k<i} L[i,k]²)` on the
diagonal. -/
theorem cholesky_recurrence (sqrt : α → α) (a : Mat α) (n i j : Nat)
    (hi : i < n) (hj : j < n) :
    (i < j → cholesky sqrt a n i j = 0) ∧
    (j < i → cholesky sqrt a n i j =
      (a i j - ∑ k in Finset.range j,
          cholesky sqrt a n i k * cholesky sqrt a n j k) /
        cholesky sqrt a n j j) ∧
    cholesky sqrt a n i i =
      sqrt (a i i - ∑ k in Finset.range i,
        cholesky sqrt a n i k * cholesky sqrt a n i k) := by
  refine ⟨fun h => cholesky_upper sqrt a n h, fun h => ?_, ?_⟩
  · rw [cholesky_offdiag sqrt a hi h, accSum_eq_sum]
  · rw [cholesky_diag sqrt a hi, accSum_eq_sum]

/-- Sample `2×2` input used to instantiate the linear-algebra theorems. -/
def aEx : Mat ℚ := fun i j => ((2 * i + j + 1 : Nat) : ℚ)

/-- `aEx` with its strictly-upper entries overwritten, for the
lower-triangle-dependence instantiation. -/
def aEx' : Mat ℚ := fun i j => if i < j then 99 else aEx i j

theorem cholesky_recurrence_witness :
    ((1 : Nat) < 2 ∧ (0 : Nat) < 2) ∧
    (((1 : Nat) < 0 → cholesky (id : ℚ → ℚ) aEx 2 1 0 = 0) ∧
     ((0 : Nat) < 1 → cholesky (id : ℚ → ℚ) aEx 2 1 0 =
        (aEx 1 0 - ∑ k in Finset.range 0,
            cholesky (id : ℚ → ℚ) aEx 2 1 k * cholesky (id : ℚ → ℚ) aEx 2 0 k) /
          cholesky (id : ℚ → ℚ) aEx 2 0 0) ∧
     cholesky (id : ℚ → ℚ) aEx 2 1 1 =
       id (aEx 1 1 - ∑ k in Finset.range 1,
         cholesky (id : ℚ → ℚ) aEx 2 1 k * cholesky (id : ℚ → ℚ) aEx 2 1 k)) :=
  ⟨by decide, cholesky_recurrence (id : ℚ → ℚ) aEx 2 1 0 (by decide) (by decide)⟩

/-- C9: the factor depends only on the lower-triangular part of the
input: two inputs agreeing on every entry on or below the diagonal give
identical factors, because the algorithm never reads a strictly-upper
entry. -/
theorem cholesky_lower_dependence (sqrt : α → α) (a a' : Mat α) (n : Nat)
    (h : ∀ i, i < n → ∀ j, j ≤ i → a i j = a' i j) :
    cholesky sqrt a n = cholesky sqrt a' n := by
  induction n with
  | zero => rfl
  | succ n ih =>
      rw [cholesky_succ, cholesky_succ,
        ih fun i hi j hj => h i (by omega) j hj,
        cholRow_congr sqrt a a' n _ fun j hj => h n (by omega) j hj]

theorem cholesky_lower_dependence_witness :
    (∀ i, i < 2 → ∀ j, j ≤ i → aEx i j = aEx' i j) ∧
    cholesky (id : ℚ → ℚ) aEx 2 = cholesky (id : ℚ → ℚ) aEx' 2 :=
  ⟨by decide, cholesky_lower_dependence (id : ℚ → ℚ) aEx aEx' 2 (by decide)⟩

/-- C3 (counterexample to the claim as stated): a violation of the
squareness precondition IS actively detected — `cholesky` asserts
`m == n` up front, so a non-square `2×3` input hits a distinct error
path (modelled as `none`) instead of producing a numerically
meaningless result. -/
theorem cholesky_checked_nonsquare_detected :
    cholesky_checked (id : ℚ → ℚ) (fun _ _ => 0) 2 3 = none := rfl

/-- C3 (amended): symmetry and positive-definiteness are a caller
contract not re-verified internally — every square input, symmetric and
positive-definite or not, produces a numeric factor and never a distinct
error — but squareness is checked by an internal assertion. -/
theorem cholesky_checked_square_total (sqrt : α → α) (a : Mat α) (n : Nat) :
    cholesky_checked sqrt a n n = some (cholesky sqrt a n) := by
  simp [cholesky_checked]

theorem getD_set_ne {β : Type} (x : List β) (s i : Nat) (v d : β)
    (h : s ≠ i) : (x.set s v).getD i d = x.getD i d := by
  induction x generalizing s i with
  | nil => rfl
  | cons a x ih =>
      cases s with
      | zero => cases i with
        | zero => omega
        | succ i => rfl
      | succ s => cases i with
        | zero => rfl
        | succ i => exact ih s i (by omega)

theorem getD_set_self {β : Type} (x : List β) (i : Nat) (v d : β)
    (h : i < x.length) : (x.set i v).getD i d = v := by
  induction x generalizing i with
  | nil => simp at h
  | cons a x ih =>
      cases i with
      | zero => rfl
      | succ i => exact ih i (by simpa using h)

theorem getD_replicate {β : Type} (n i : Nat) (c : β) :
    (List.replicate n c).getD i c = c := by
  induction n generalizing i with
  | zero => cases i <;> rfl
  | succ n ih => cases i with
    | zero => rfl
    | succ i => exact ih i

theorem accSub_congr {f g : Nat → α} (start : α) (n : Nat)
    (h : ∀ k, k < n → f k = g k) :
    accSub start f n = accSub start g n := by
  induction n with
  | zero => rfl
  | succ n ih =>
      rw [accSub, accSub, ih fun k hk => h k (Nat.lt_succ_of_lt hk),
        h n (Nat.lt_succ_self n)]

/-- One iteration of the `subst_fw` loop for row `i`
(src/src/linalg.rs lines 136-143): subtract `l[(i, j)] * x[j]` for
`j < i` from `b[i]`, divide by `l[(i, i)]`, and store at `x[i]`. -/
def sfStep (l : Mat α) (b : List α) (i : Nat) (x : List α) : List α :=
  x.set i (accSub (b.getD i 0) (fun j => l i j * x.getD j 0) i / l i i)

/-- The body of `subst_fw` after its asserts
(src/src/linalg.rs lines 130-145): `x = Vec::from_elem(m, zero())`, then
the row loop for `i` ascending over `b`'s indices (the asserts make
`b.dim()` equal to `l`'s dimension `m`). -/
def subst_fw (l : Mat α) (b : List α) : List α :=
  forLoop (sfStep l b) b.length (List.replicate b.length 0)

/-- `subst_fw` as called on an `m × n` matrix: the source first does
`assert!(m == n)` and `assert!(m == b.dim())` (modelled as `none` on
failure). -/
def subst_fw_checked (l : Mat α) (m n : Nat) (b : List α) :
    Option (List α) :=
  if m = n ∧ m = b.length then some (subst_fw l b) else none

/-- One iteration of the `subst_bw` loop (src/src/linalg.rs lines
154-161); the loop counter `t` corresponds to row `i = m - 1 - t`, and
the reversed row/solution iterators pair `u[(i, m-1-s)]` with
`x[m-1-s]` for `s < m - i - 1`. -/
def sbStep (u : Mat α) (b : List α) (t : Nat) (x : List α) : List α :=
  x.set (b.length - 1 - t)
    (accSub (b.getD (b.length - 1 - t) 0)
        (fun s => u (b.length - 1 - t) (b.length - 1 - s) *
          x.getD (b.length - 1 - s) 0)
        (b.length - (b.length - 1 - t) - 1) /
      u (b.length - 1 - t) (b.length - 1 - t))

/-- The body of `subst_bw` after its asserts
(src/src/linalg.rs lines 148-163): `x = Vec::from_elem(m, zero())`, then
the row loop for `i` in `range(0, m).rev()`. -/
def subst_bw (u : Mat α) (b : List α) : List α :=
  forLoop (sbStep u b) b.length (List.replicate b.length 0)

/-- `subst_bw` as called on an `m × n` matrix: the source first does
`assert!(m == n)` and `assert!(m == b.dim())`. -/
def subst_bw_checked (u : Mat α) (m n : Nat) (b : List α) :
    Option (List α) :=
  if m = n ∧ m = b.length then some (subst_bw u b) else none

theorem subst_fw_len (l : Mat α) (b : List α) (t : Nat) :
    (forLoop (sfStep l b) t (List.replicate b.length 0)).length =
      b.length := by
  refine forLoop_invar (fun x => x.length = b.length) (sfStep l b)
    (fun j x hx => ?_) t _ (List.length_replicate _ _)
  show (sfStep l b j x).length = b.length
  rw [sfStep, List.length_set]
  exact hx

theorem subst_fw_stable (l : Mat α) (b : List α) {i t t' : Nat}
    (hi : i < t) (h : t ≤ t') :
    (forLoop (sfStep l b) t' (List.replicate b.length 0)).getD i 0 =
      (forLoop (sfStep l b) t (List.replicate b.length 0)).getD i 0 := by
  induction t' with
  | zero => omega
  | succ t' ih =>
      rcases Nat.lt_or_ge t' t with h' | h'
      · have : t = t' + 1 := by omega
        subst this; rfl
      · show (sfStep l b t' _).getD i 0 = _
        rw [sfStep, getD_set_ne _ _ _ _ _ (by omega)]
        exact ih (by omega)

theorem subst_fw_zero (l : Mat α) (b : List α) {i t : Nat} (h : t ≤ i) :
    (forLoop (sfStep l b) t (List.replicate b.length 0)).getD i 0 = 0 := by
  induction t with
  | zero => exact getD_replicate _ _ _
  | succ t ih =>
      show (sfStep l b t _).getD i 0 = 0
      rw [sfStep, getD_set_ne _ _ _ _ _ (by omega)]
      exact ih (by omega)

/-- C5: forward substitution satisfies
`x[i] = (b[i] − Σ_{j<i} L[i,j]·x[j]) / L[i,i]`, row by row from the
top. -/
theorem subst_fw_spec (l : Mat α) (b : List α) (i : Nat)
    (hi : i < b.length) :
    (subst_fw l b).length = b.length ∧
    (subst_fw l b).getD i 0 =
      (b.getD i 0 -
          ∑ j in Finset.range i, l i j * (subst_fw l b).getD j 0) /
        l i i := by
  have hcong : accSub (b.getD i 0)
      (fun j => l i j *
        (forLoop (sfStep l b) i (List.replicate b.length 0)).getD j 0) i =
      accSub (b.getD i 0) (fun j => l i j * (subst_fw l b).getD j 0) i := by
    refine accSub_congr _ i fun j hj => ?_
    have h1 : (forLoop (sfStep l b) i (List.replicate b.length 0)).getD j 0 =
        (forLoop (sfStep l b) (j + 1) (List.replicate b.length 0)).getD j 0 :=
      subst_fw_stable l b (Nat.lt_succ_self j) (by omega)
    have h2 : (subst_fw l b).getD j 0 =
        (forLoop (sfStep l b) (j + 1) (List.replicate b.length 0)).getD j 0 :=
      subst_fw_stable l b (Nat.lt_succ_self j) (by omega)
    rw [h1, h2]
  refine ⟨subst_fw_len l b b.length, ?_⟩
  show (forLoop (sfStep l b) b.length _).getD i 0 = _
  rw [subst_fw_stable l b (Nat.lt_succ_self i) hi]
  show (sfStep l b i _).getD i 0 = _
  rw [sfStep, getD_set_self _ _ _ _ (by rw [subst_fw_len]; exact hi),
    hcong, accSub_eq_sub_sum]

theorem subst_bw_len (u : Mat α) (b : List α) (t : Nat) :
    (forLoop (sbStep u b) t (List.replicate b.length 0)).length =
      b.length := by
  refine forLoop_invar (fun x => x.length = b.length) (sbStep u b)
    (fun j x hx => ?_) t _ (List.length_replicate _ _)
  show (sbStep u b j x).length = b.length
  rw [sbStep, List.length_set]
  exact hx

/-- Entries already written by the backward loop (indices `≥ m - t`)
are never rewritten by later iterations. -/
theorem subst_bw_stable (u : Mat α) (b : List α) {j t t' : Nat}
    (hj : b.length - t ≤ j) (h : t ≤ t') (hm : t' ≤ b.length) :
    (forLoop (sbStep u b) t' (List.replicate b.length 0)).getD j 0 =
      (forLoop (sbStep u b) t (List.replicate b.length 0)).getD j 0 := by
  induction t' with
  | zero =>
      have : t = 0 := by omega
      subst this; rfl
  | succ t' ih =>
      rcases Nat.lt_or_ge t' t with h' | h'
      · have : t = t' + 1 := by omega
        subst this; rfl
      · show (sbStep u b t' _).getD j 0 = _
        rw [sbStep, getD_set_ne _ _ _ _ _ (by omega)]
        exact ih (by omega) (by omega)

/-- Entries not yet reached by the backward loop (indices `< m - t`)
are still the initial zero fill. -/
theorem subst_bw_zero (u : Mat α) (b : List α) {j t : Nat}
    (hj : j < b.length - t) :
    (forLoop (sbStep u b) t (List.replicate b.length 0)).getD j 0 = 0 := by
  induction t with
  | zero => exact getD_replicate _ _ _
  | succ t ih =>
      show (sbStep u b t _).getD j 0 = 0
      rw [sbStep, getD_set_ne _ _ _ _ _ (by omega)]
      exact ih (by omega)

/-- The descending inner sum of `subst_bw` re-indexed as a sum over the
column interval `(i, m)`. -/
theorem sum_reflect_Ioo (g : Nat → α) {i m : Nat} (h : i < m) :
    ∑ s in Finset.range (m - i - 1), g (m - 1 - s) =
      ∑ j in Finset.Ioo i m, g j := by
  have h1 : ∀ s ∈ Finset.range (m - i - 1),
      g (m - 1 - s) = (fun s' => g (i + 1 + s')) (m - i - 1 - 1 - s) := by
    intro s hs
    rw [Finset.mem_range] at hs
    congr 1
    omega
  rw [Finset.sum_congr rfl h1, Finset.sum_range_reflect (fun s' => g (i + 1 + s')),
    ← Nat.Ico_succ_left, Finset.sum_Ico_eq_sum_range]
  exact Finset.sum_congr (by congr 1) fun s _ => rfl

/-- C4: backward substitution satisfies
`x[i] = (b[i] − Σ_{j>i} U[i,j]·x[j]) / U[i,i]`, rows traversed from the
last to the first. -/
theorem subst_bw_spec (u : Mat α) (b : List α) (i : Nat)
    (hi : i < b.length) :
    (subst_bw u b).length = b.length ∧
    (subst_bw u b).getD i 0 =
      (b.getD i 0 -
          ∑ j in Finset.Ioo i b.length, u i j * (subst_bw u b).getD j 0) /
        u i i := by
  have hieq : b.length - 1 - (b.length - 1 - i) = i := by omega
  have hcong : accSub (b.getD i 0)
      (fun s => u i (b.length - 1 - s) *
        (forLoop (sbStep u b) (b.length - 1 - i)
          (List.replicate b.length 0)).getD (b.length - 1 - s) 0)
      (b.length - i - 1) =
      accSub (b.getD i 0)
        (fun s => u i (b.length - 1 - s) *
          (subst_bw u b).getD (b.length - 1 - s) 0)
        (b.length - i - 1) := by
    refine accSub_congr _ _ fun s hs => ?_
    have h2 : (subst_bw u b).getD (b.length - 1 - s) 0 =
        (forLoop (sbStep u b) (b.length - 1 - i)
          (List.replicate b.length 0)).getD (b.length - 1 - s) 0 :=
      subst_bw_stable u b (by omega) (by omega) (by omega)
    rw [h2]
  refine ⟨subst_bw_len u b b.length, ?_⟩
  have hfin : (subst_bw u b).getD i 0 =
      (forLoop (sbStep u b) (b.length - 1 - i + 1)
        (List.replicate b.length 0)).getD i 0 :=
    subst_bw_stable u b (by omega) (by omega) (by omega)
  rw [hfin]
  show (sbStep u b (b.length - 1 - i) _).getD i 0 = _
  rw [sbStep, hieq, getD_set_self _ _ _ _ (by rw [subst_bw_len]; exact hi),
    hcong, accSub_eq_sub_sum,
    sum_reflect_Ioo (fun j => u i j * (subst_bw u b).getD j 0) hi]

/-- C10: on the degenerate `m = 0` input (a `0×0` triangular matrix and
an empty right-hand side) both solvers return the empty solution vector:
the row loop, and with it every division, is never entered, the result
being the untouched initial `Vec::from_elem(0, zero())`; the dimension
asserts also pass. -/
theorem subst_empty (l u : Mat α) :
    subst_fw l ([] : List α) = [] ∧ subst_bw u ([] : List α) = [] ∧
    subst_fw_checked l 0 0 [] = some [] ∧
    subst_bw_checked u 0 0 [] = some [] := by
  refine ⟨rfl, rfl, ?_, ?_⟩ <;>
    simp [subst_fw_checked, subst_bw_checked] <;> rfl

theorem subst_fw_spec_witness :
    ((1 : Nat) < ([(3 : ℚ), 5] : List ℚ).length) ∧
    ((subst_fw aEx [(3 : ℚ), 5]).length = ([(3 : ℚ), 5] : List ℚ).length ∧
     (subst_fw aEx [(3 : ℚ), 5]).getD 1 0 =
       (([(3 : ℚ), 5] : List ℚ).getD 1 0 -
           ∑ j in Finset.range 1,
             aEx 1 j * (subst_fw aEx [(3 : ℚ), 5]).getD j 0) /
         aEx 1 1) :=
  ⟨by decide, subst_fw_spec aEx [(3 : ℚ), 5] 1 (by decide)⟩

theorem subst_bw_spec_witness :
    ((0 : Nat) < ([(3 : ℚ), 5] : List ℚ).length) ∧
    ((subst_bw aEx [(3 : ℚ), 5]).length = ([(3 : ℚ), 5] : List ℚ).length ∧
     (subst_bw aEx [(3 : ℚ), 5]).getD 0 0 =
       (([(3 : ℚ), 5] : List ℚ).getD 0 0 -
           ∑ j in Finset.Ioo 0 ([(3 : ℚ), 5] : List ℚ).length,
             aEx 0 j * (subst_bw aEx [(3 : ℚ), 5]).getD j 0) /
         aEx 0 0) :=
  ⟨by decide, subst_bw_spec aEx [(3 : ℚ), 5] 0 (by decide)⟩

/-- Modelled from the spec: the array engine's `mat_mul` (absent from
the sources; only its tests and the `least_squares` call sites remain)
is the standard matrix product, with `p` the inner (contracted)
dimension. -/
def mat_mul (a b : Mat α) (p : Nat) : Mat α :=
  fun i j => accSum (fun k => a i k * b k j) p

/-- Modelled from the spec: `swap_axes(0, 1)` on a 2-D array exchanges
the two axes' lengths and strides with no data movement (§4.3); on the
logical matrix its effect is transposition.  `a.clone()` copies
shape/strides by value and shares elements, so `a.clone()` followed by
`swap_axes(0, 1)` reads as the plain transpose of the value. -/
def swap01 (a : Mat α) : Mat α := fun i j => a j i

/-- The body of `least_squares` (src/src/linalg.rs lines 40-74), step by
step in source order: `aT = a.clone(); aT.swap_axes(0,1)`, `aT_a =
aT.mat_mul(a)`, `L = cholesky(&aT_a)`, `rhs =
aT.mat_mul(&b.reshape((m,1))).reshape(n)` (the `m×1` reshape of the
column `b` is the matrix `fun k _ => b[k]`, and the final reshape reads
back column 0 of the `n×1` product), `z = subst_fw(&L, &rhs)`,
`L.swap_axes(0,1)`, `x_lstsq = subst_bw(&L, &z)`. -/
def least_squares (sqrt : α → α) (a : Mat α) (m n : Nat) (b : List α) :
    List α :=
  let aT := swap01 a
  let aT_a := mat_mul aT a m
  let L := cholesky sqrt aT_a n
  let rhs := (List.range n).map fun i =>
    mat_mul aT (fun k _ => b.getD k 0) m i 0
  let z := subst_fw L rhs
  let LT := swap01 L
  subst_bw LT z

/-- C2: `least_squares(A, b)` computes its result by exactly the normal
equation steps: Cholesky-factor `AᵗA` into `L`, forward-substitute
`L·z = Aᵗb`, then backward-substitute `Lᵗ·x = z` with `Lᵗ` the axis swap
of `L`; the returned vector is
`subst_bw(swap_axes(cholesky(AᵗA)), subst_fw(cholesky(AᵗA), Aᵗb))`. -/
theorem least_squares_steps (sqrt : α → α) (a : Mat α) (m n : Nat)
    (b : List α) :
    least_squares sqrt a m n b =
      subst_bw (swap01 (cholesky sqrt (mat_mul (swap01 a) a m) n))
        (subst_fw (cholesky sqrt (mat_mul (swap01 a) a m) n)
          ((List.range n).map fun i =>
            mat_mul (swap01 a) (fun k _ => b.getD k 0) m i 0)) := rfl

/-! ### Copy-on-write storage (array engine, modelled from the spec)

The array engine itself is not among the sources (only `tests/array.rs`
exercises it), so the storage layer is modelled from §4.2/§4.3 of the
spec: a store of reference-counted element buffers, handles that name a
buffer, `share()` incrementing the count, and `ensure_unique()` run
before every in-place write.  Shapes, strides and offsets are copied by
value on clone and are untouched by element writes, so element-level
reads through a fixed handle are the relevant observations. -/

/-- Modelled from the spec: the storage component — a pool of element
buffers together with one reference count per buffer. -/
structure CowState (β : Type) where
  bufs : List (List β)
  rc : List Nat

/-- Modelled from the spec: an array's storage handle, naming the buffer
it is backed by. -/
structure CowHandle where
  buf : Nat

/-- Reading element `i` through a handle. -/
def cowRead {β : Type} [Inhabited β] (s : CowState β) (h : CowHandle)
    (i : Nat) : β :=
  (s.bufs.getD h.buf []).getD i default

/-- Modelled from the spec: `clone` / `share()` — an O(1) duplicate
handle on the same buffer with the reference count incremented; no
element copy. -/
def cowClone {β : Type} (s : CowState β) (h : CowHandle) :
    CowState β × CowHandle :=
  ({ s with rc := s.rc.set h.buf (s.rc.getD h.buf 0 + 1) }, ⟨h.buf⟩)

/-- Modelled from the spec: `ensure_unique()` — if the reference count
exceeds one, copy the backing elements into a fresh buffer, rebind the
handle to it and decrement the old count; otherwise do nothing. -/
def ensureUnique {β : Type} (s : CowState β) (h : CowHandle) :
    CowState β × CowHandle :=
  if 1 < s.rc.getD h.buf 0 then
    ({ bufs := s.bufs ++ [s.bufs.getD h.buf []],
       rc := s.rc.set h.buf (s.rc.getD h.buf 0 - 1) ++ [1] },
      ⟨s.bufs.length⟩)
  else (s, h)

/-- Modelled from the spec: an in-place element write, preceded by the
mandatory `ensure_unique()` call. -/
def cowWrite {β : Type} (s : CowState β) (h : CowHandle) (i : Nat)
    (v : β) : CowState β × CowHandle :=
  let p := ensureUnique s h
  ({ p.1 with
      bufs := p.1.bufs.set p.2.buf ((p.1.bufs.getD p.2.buf []).set i v) },
    p.2)

/-- A sequence of element writes through one array, threading the
handle rebinding that `ensure_unique()` may perform. -/
def cowWrites {β : Type} (s : CowState β) (h : CowHandle) :
    List (Nat × β) → CowState β × CowHandle
  | [] => (s, h)
  | (i, v) :: ws =>
      let p := cowWrite s h i v
      cowWrites p.1 p.2 ws

/-- The well-formedness relating a mutating handle `p` to an observer
handle `q`: both buffers exist, the count table covers the pool, and if
the two share a buffer its reference count records both of them. -/
def CowInv {β : Type} (s : CowState β) (p q : CowHandle) : Prop :=
  s.rc.length = s.bufs.length ∧ p.buf < s.bufs.length ∧
    q.buf < s.bufs.length ∧ (p.buf = q.buf → 2 ≤ s.rc.getD p.buf 0)

theorem getD_append_left {β : Type} (t u : List β) (i : Nat) (d : β)
    (h : i < t.length) : (t ++ u).getD i d = t.getD i d := by
  induction t generalizing i with
  | nil => simp at h
  | cons a t ih =>
      cases i with
      | zero => rfl
      | succ i => exact ih i (by simpa using h)

theorem cowWrite_preserves {β : Type} [Inhabited β] (s : CowState β)
    (p q : CowHandle) (i : Nat) (v : β) (hinv : CowInv s p q) :
    CowInv (cowWrite s p i v).1 (cowWrite s p i v).2 q ∧
      ∀ j, cowRead (cowWrite s p i v).1 q j = cowRead s q j := by
  obtain ⟨hlen, hp, hq, hshare⟩ := hinv
  by_cases hrc : 1 < s.rc.getD p.buf 0
  · have hne : q.buf ≠ s.bufs.length := by omega
    constructor
    · refine ⟨?_, ?_, ?_, ?_⟩ <;>
        simp only [cowWrite, ensureUnique, if_pos hrc, List.length_set,
          List.length_append, List.length_singleton]
      · simp [hlen]
      · omega
      · omega
      · intro hcontra
        omega
    · intro j
      simp only [cowRead, cowWrite, ensureUnique, if_pos hrc]
      rw [getD_set_ne _ _ _ _ _ (by simpa using hne.symm),
        getD_append_left _ _ _ _ hq]
  · have hpq : p.buf ≠ q.buf := by
      intro hcontra
      have := hshare hcontra
      omega
    constructor
    · refine ⟨?_, ?_, ?_, ?_⟩ <;>
        simp only [cowWrite, ensureUnique, if_neg hrc, List.length_set]
      · exact hlen
      · exact hp
      · exact hq
      · intro hcontra
        exact absurd hcontra hpq
    · intro j
      simp only [cowRead, cowWrite, ensureUnique, if_neg hrc]
      rw [getD_set_ne _ _ _ _ _ hpq]

theorem cowWrites_preserves {β : Type} [Inhabited β] (s : CowState β)
    (p q : CowHandle) (ws : List (Nat × β)) (hinv : CowInv s p q) :
    ∀ j, cowRead (cowWrites s p ws).1 q j = cowRead s q j := by
  induction ws generalizing s p with
  | nil => intro j; rfl
  | cons w ws ih =>
      intro j
      obtain ⟨i, v⟩ := w
      have step := cowWrite_preserves s p q i v hinv
      show cowRead (cowWrites (cowWrite s p i v).1 (cowWrite s p i v).2 ws).1 q j = _
      rw [ih _ _ step.1, step.2 j]

/-- C6: cloning an array yields an immediately equal array, and any
sequence of element writes through one of the two leaves every
previously-observed element of the other unchanged — the first write
through the shared buffer triggers `ensure_unique()`, after which the
two diverge. -/
theorem cow_clone_isolation {β : Type} [Inhabited β] (s : CowState β)
    (h : CowHandle) (ws : List (Nat × β)) (hb : h.buf < s.bufs.length)
    (hl : s.rc.length = s.bufs.length) (hc : 1 ≤ s.rc.getD h.buf 0) :
    (∀ i, cowRead (cowClone s h).1 (cowClone s h).2 i =
      cowRead (cowClone s h).1 h i) ∧
    ∀ j, cowRead (cowWrites (cowClone s h).1 h ws).1 (cowClone s h).2 j =
      cowRead (cowClone s h).1 (cowClone s h).2 j := by
  have hinv : CowInv (cowClone s h).1 h (cowClone s h).2 := by
    refine ⟨?_, ?_, ?_, ?_⟩ <;>
      simp only [cowClone, List.length_set]
    · exact hl
    · exact hb
    · exact hb
    · intro _
      rw [getD_set_self _ _ _ _ (by omega)]
      omega
  exact ⟨fun i => rfl, cowWrites_preserves _ h _ ws hinv⟩

/-- The storage of the 2×2 copy-on-write test scenario: a `2×2` array,
zero-allocated and then given `mat[(0,0)] = 1` while still uniquely
owned, laid out row-major in one buffer. -/
def cowEx : CowState Int := { bufs := [[1, 0, 0, 0]], rc := [1] }

/-- The handle of that array. -/
def hEx : CowHandle := ⟨0⟩

theorem cow_clone_isolation_witness :
    (hEx.buf < cowEx.bufs.length ∧ cowEx.rc.length = cowEx.bufs.length ∧
      1 ≤ cowEx.rc.getD hEx.buf 0) ∧
    ((∀ i, cowRead (cowClone cowEx hEx).1 (cowClone cowEx hEx).2 i =
        cowRead (cowClone cowEx hEx).1 hEx i) ∧
     ∀ j, cowRead (cowWrites (cowClone cowEx hEx).1 hEx
           [(1, 2), (2, 3), (3, 4)]).1 (cowClone cowEx hEx).2 j =
       cowRead (cowClone cowEx hEx).1 (cowClone cowEx hEx).2 j) :=
  ⟨by decide,
    cow_clone_isolation cowEx hEx [(1, 2), (2, 3), (3, 4)] (by decide)
      (by decide) (by decide)⟩

/-! ### 1-D strided views and slicing (array engine, modelled from the spec) -/

/-- Modelled from the spec: a 1-D view — shared element data addressed
as `offset + index · stride`, with signed stride and offset. -/
structure View1 (β : Type) where
  data : Int → β
  off : Int
  stride : Int
  len : Nat

/-- Logical element `k` of a 1-D view. -/
def View1.elem {β : Type} (v : View1 β) (k : Nat) : β :=
  v.data (v.off + k * v.stride)

/-- Modelled from the spec: slicing one axis with spec
`(start = 0, end = None, step)`: a zero step fails; otherwise the view's
stride is multiplied by the step, the new length is the count of
selected indices, and for a negative step the base offset is anchored at
the last selected element. -/
def slice1 {β : Type} (v : View1 β) (step : Int) : Option (View1 β) :=
  if step = 0 then none
  else if 0 < step then
    some { v with
      stride := v.stride * step,
      len := (v.len + (step.toNat - 1)) / step.toNat }
  else
    some { v with
      off := v.off + ((v.len : Int) - 1) * v.stride,
      stride := v.stride * step,
      len := (v.len + ((-step).toNat - 1)) / (-step).toNat }

/-- C7: slicing a 1-D view with step `-1` is an ordinary slice (not an
error path) of the same length whose element `k` is the source's element
`len - 1 - k`: logical order is exactly reversed. -/
theorem slice1_neg_one_reverses {β : Type} (v : View1 β) (k : Nat)
    (hk : k < v.len) :
    ((slice1 v (-1)).isSome = true) ∧
    ((slice1 v (-1)).map View1.len = some v.len) ∧
    ((slice1 v (-1)).map (fun w => w.elem k) =
      some (v.elem (v.len - 1 - k))) := by
  refine ⟨rfl, by simp [slice1], ?_⟩
  simp only [slice1, if_neg (by norm_num : ¬(-1 : Int) = 0),
    if_neg (by norm_num : ¬(0 : Int) < -1), Option.map_some']
  congr 1
  show v.data _ = v.data _
  congr 1
  have hcast : ((v.len - 1 - k : Nat) : Int) = (v.len : Int) - 1 - k := by
    omega
  rw [hcast]
  ring

theorem slice1_neg_one_reverses_witness :
    ((0 : Nat) <
        (⟨fun z => z, 0, 1, 4⟩ : View1 Int).len) ∧
    (((slice1 (⟨fun z => z, 0, 1, 4⟩ : View1 Int) (-1)).isSome = true) ∧
     ((slice1 (⟨fun z => z, 0, 1, 4⟩ : View1 Int) (-1)).map View1.len =
        some (⟨fun z => z, 0, 1, 4⟩ : View1 Int).len) ∧
     ((slice1 (⟨fun z => z, 0, 1, 4⟩ : View1 Int) (-1)).map
          (fun w => w.elem 0) =
        some ((⟨fun z => z, 0, 1, 4⟩ : View1 Int).elem
          ((⟨fun z => z, 0, 1, 4⟩ : View1 Int).len - 1 - 0)))) :=
  ⟨by decide,
    slice1_neg_one_reverses (⟨fun z => z, 0, 1, 4⟩ : View1 Int) 0
      (by decide)⟩

/-! ### Iteration layer (array engine, modelled from the spec) -/

/-- Modelled from the spec: the row-major enumeration of all index
tuples of a shape, the logical order in which `iter()` visits
elements. -/
def enumIdx : List Nat → List (List Nat)
  | [] => [[]]
  | d :: ds => (List.range d).flatMap fun i => (enumIdx ds).map fun t => i :: t

/-- Modelled from the spec: an element iterator — the not-yet-produced
elements, in logical order, of the view it was created from. -/
structure ArrIter (β : Type) where
  rem : List β
  deriving DecidableEq

/-- Modelled from the spec: `next()` — produce the first remaining
element, or `none` once exhausted. -/
def ArrIter.next {β : Type} : ArrIter β → Option β × ArrIter β
  | ⟨[]⟩ => (none, ⟨[]⟩)
  | ⟨x :: xs⟩ => (some x, ⟨xs⟩)

/-- Modelled from the spec: `size_hint()` — the exact remaining count,
as both lower and upper bound. -/
def ArrIter.sizeHint {β : Type} (it : ArrIter β) : Nat × Option Nat :=
  (it.rem.length, some it.rem.length)

/-- Modelled from the spec: `iter()` on a view with the given shape and
element lookup (the lookup absorbs strides/offset, so any memory layout,
including one produced by `swap_axes`, is covered). -/
def arrIter {β : Type} (read : List Nat → β) (shape : List Nat) :
    ArrIter β :=
  ⟨(enumIdx shape).map read⟩

theorem enumIdx_length (shape : List Nat) :
    (enumIdx shape).length = shape.prod := by
  induction shape with
  | nil => rfl
  | cons d ds ih =>
      rw [enumIdx, List.length_flatMap]
      have h1 : ∀ i, (List.length ∘ fun i' => (enumIdx ds).map
          fun t => i' :: t) i = ds.prod := by
        intro i
        show ((enumIdx ds).map fun t => i :: t).length = ds.prod
        rw [List.length_map, ih]
      calc (List.map (List.length ∘ fun i => (enumIdx ds).map
            fun t => i :: t) (List.range d)).sum
      _ = (List.map (fun _ => ds.prod) (List.range d)).sum := by
        rw [List.map_congr_left fun i _ => h1 i]
      _ = (d :: ds).prod := by
        rw [List.map_const', List.length_range, List.sum_const_nat,
          List.prod_cons]

/-- C8: `size_hint` of a fresh iterator is exactly the product of the
shape's axis lengths (whatever the layout's element lookup is); each
produced element decreases it by exactly one; it is `(0, Some 0)`
precisely at exhaustion; and an exhausted iterator stays exhausted at
count zero. -/
theorem iter_size_hint_exact {β : Type} (read : List Nat → β)
    (shape : List Nat) (it it' : ArrIter β) (x : β) :
    ((arrIter read shape).sizeHint = (shape.prod, some shape.prod)) ∧
    (it.next = (some x, it') →
      it.sizeHint.1 = it'.sizeHint.1 + 1 ∧
        it'.sizeHint = (it'.sizeHint.1, some it'.sizeHint.1)) ∧
    ((it.next.1 = none) ↔ it.sizeHint = (0, some 0)) ∧
    (it.next.1 = none → it.next.2 = it ∧ it.next.2.next.1 = none) := by
  obtain ⟨rem⟩ := it
  refine ⟨?_, ?_, ?_, ?_⟩
  · show (((enumIdx shape).map read).length,
      some ((enumIdx shape).map read).length) = (shape.prod, some shape.prod)
    rw [List.length_map, enumIdx_length]
  · cases rem with
    | nil => intro hcontra; simp [ArrIter.next] at hcontra
    | cons y ys =>
        intro hnext
        simp only [ArrIter.next, Prod.mk.injEq] at hnext
        rw [← hnext.2]
        exact ⟨rfl, rfl⟩
  · cases rem with
    | nil => simp [ArrIter.next, ArrIter.sizeHint]
    | cons y ys => simp [ArrIter.next, ArrIter.sizeHint]
  · cases rem with
    | nil => intro _; exact ⟨rfl, rfl⟩
    | cons y ys => intro hcontra; simp [ArrIter.next] at hcontra

theorem iter_size_hint_exact_witness :
    ((⟨[(1 : Int), 2]⟩ : ArrIter Int).next = (some 1, ⟨[2]⟩)) ∧
    ((⟨[(1 : Int), 2]⟩ : ArrIter Int).sizeHint.1 =
        (⟨[(2 : Int)]⟩ : ArrIter Int).sizeHint.1 + 1 ∧
      (⟨[(2 : Int)]⟩ : ArrIter Int).sizeHint =
        ((⟨[(2 : Int)]⟩ : ArrIter Int).sizeHint.1,
          some (⟨[(2 : Int)]⟩ : ArrIter Int).sizeHint.1)) :=
  ⟨by decide,
    (iter_size_hint_exact (fun _ => (0 : Int)) [2, 2] ⟨[(1 : Int), 2]⟩
        ⟨[(2 : Int)]⟩ 1).2.1 (by decide)⟩

end Ndarray
